import Mathlib

/-!
Shallow embedding of `src/nODEDRL/modules.py`: the `ReplayMemory` class
(prioritized experience replay over two `collections.deque(maxlen=capacity)`
sequences) and the target-network soft-update loop at the end of
`optimize_model`.

Modelling conventions:
* tensors stored in transitions are opaque payloads of a type parameter `V`;
* Python float scalars (priorities, parameter values, tau) are modelled by `ℚ`
  (exact dyadic arithmetic stands for IEEE floats);
* the real-valued weight vector produced by `numpy` power/divide is modelled
  over `ℝ`, with `Real.rpow` standing for `np.power` on positive inputs;
* Python exceptions are surfaced as an explicit error type `PyErr`;
* the pseudo-random draws of `random.choices` are abstracted into an oracle
  list of naturals, reduced mod the population size.
-/

namespace NODEDRL

/-- Python exception classes relevant to the modelled code paths.
`insufficientSamples` is the descriptive empty-store error demanded by the
specification (section 7); the source never raises it, which is exactly what
the C7 analysis settles. -/
inductive PyErr where
  | indexError
  | valueError
  | typeError
  | keyError
  | insufficientSamples
  deriving DecidableEq

/-- The `Transition` namedtuple of modules.py line 23, with fields state,
action, next_state, reward.  `next_state` is `None` (here `Option.none`)
on terminal steps. -/
structure Transition (V : Type) where
  state : V
  action : V
  next_state : Option V
  reward : V
  deriving DecidableEq

/-- Appending to a `collections.deque` with `maxlen = c`: the deque keeps only
the last `c` appended elements, evicting from the left. -/
def dequeAppend (c : Nat) (l : List A) (x : A) : List A :=
  (l ++ [x]).drop (l.length + 1 - c)

/-- The last `c` elements of a list, in order. -/
def lastN (c : Nat) (l : List A) : List A :=
  l.drop (l.length - c)

/-- State of a `ReplayMemory(capacity, alpha)` instance (modules.py lines
122-127): two parallel deques `_memory` and `_priorities` with the same
`maxlen`, plus the sampling exponent `_alpha` fixed at construction.  The
`_probabilities` field of the source is a cache that every use site overwrites
before reading (the `probabilities` property reassigns it on each call), so it
carries no observable state and is omitted. -/
structure ReplayMemory (V : Type) where
  capacity : Nat
  alpha : ℝ
  memory : List (Transition V)
  priorities : List ℚ

/-- A freshly constructed `ReplayMemory(capacity, alpha)`: both deques start
empty. -/
def mkEmpty (c : Nat) (a : ℝ) : ReplayMemory V :=
  ⟨c, a, [], []⟩

/-- `ReplayMemory.push` (modules.py lines 135-137): appends the transition to
`_memory` and the priority (default `1`) to `_priorities`; both deques evict
their oldest entry when at `maxlen`. -/
def ReplayMemory.push (s : ReplayMemory V) (t : Transition V) (p : ℚ) : ReplayMemory V :=
  { s with
    memory := dequeAppend s.capacity s.memory t
    priorities := dequeAppend s.capacity s.priorities p }

/-- `np.power(np.array(self._priorities), self._alpha)` (modules.py line 153):
the elementwise power of the current priorities. -/
noncomputable def poweredWeights (s : ReplayMemory V) : List ℝ :=
  s.priorities.map fun p : ℚ => (p : ℝ) ^ s.alpha

/-- `ReplayMemory.probabilities` (modules.py lines 151-154): the elementwise
power of the priorities divided elementwise by its total
(`np.divide(self._probabilities, np.sum(self._probabilities))`).  Recomputed
from the current priorities on every call. -/
noncomputable def ReplayMemory.probabilities (s : ReplayMemory V) : List ℝ :=
  (poweredWeights s).map fun w => w / (poweredWeights s).sum

/-- The loop body of `ReplayMemory.update_priorities` (modules.py lines
147-149):
`for choice_idx, memory_idx in enumerate(indices):
self._priorities[memory_idx] = float(priorities[choice_idx])`.
Walking `indices` and `priorities` in step is the enumerate-with-subscript
access of the source: when `indices` outruns `priorities`, the subscript
`priorities[choice_idx]` raises IndexError (after the earlier assignments have
already happened); an out-of-range `memory_idx` makes the deque assignment
raise IndexError.  The final sequence and the raised error (if any) are both
returned. -/
def updLoop : List ℚ → List Nat → List ℚ → List ℚ × Option PyErr
  | prios, [], _ => (prios, none)
  | prios, _ :: _, [] => (prios, some .indexError)
  | prios, i :: is, v :: vs =>
    if i < prios.length then updLoop (prios.set i v) is vs
    else (prios, some .indexError)

/-- `ReplayMemory.update_priorities(indices, priorities)`: runs the update loop
on `_priorities`, returning the mutated store and the raised error, if any. -/
def ReplayMemory.update_priorities (s : ReplayMemory V) (indices : List Nat)
    (newPriorities : List ℚ) : ReplayMemory V × Option PyErr :=
  let r := updLoop s.priorities indices newPriorities
  ({ s with priorities := r.1 }, r.2)

/-- A Python value appearing in the list returned by `ReplayMemory.sample`:
either a whole `Transition` record, or (when `itemgetter` unpacking degenerates
to a single record and `list()` iterates its fields) one field of a transition,
which is a tensor or `None`. -/
inductive PyVal (V : Type) where
  | obj : V → PyVal V
  | pyNone : PyVal V
  | tr : Transition V → PyVal V
  deriving DecidableEq

/-- `list(t)` for a `Transition` namedtuple `t`: its four fields in order,
with an absent next state rendered as `None`. -/
def transitionFields (t : Transition V) : List (PyVal V) :=
  [.obj t.state, .obj t.action, t.next_state.elim .pyNone .obj, .obj t.reward]

/-- `list(itemgetter(i1, ..., im)(mem))` for `m ≥ 2`: `itemgetter` returns the
tuple of looked-up elements and `list` turns it into a list of `Transition`
records; a bad index raises IndexError. -/
def getTransList (mem : List (Transition V)) : List Nat → Except PyErr (List (PyVal V))
  | [] => .ok []
  | i :: rest =>
    match mem[i]? with
    | none => .error .indexError
    | some t =>
      match getTransList mem rest with
      | .error e => .error e
      | .ok es => .ok (PyVal.tr t :: es)

/-- `list(itemgetter(*idx_choice)(self._memory))` (modules.py line 141).
With no index, `itemgetter()` raises TypeError.  With exactly one index,
`itemgetter(i)` returns the element itself — a `Transition` namedtuple — and
`list()` iterates it, yielding its four fields rather than a one-element list.
With two or more indices the result is the list of looked-up records. -/
def itemgetterList (mem : List (Transition V)) : List Nat → Except PyErr (List (PyVal V))
  | [] => .error .typeError
  | [i] =>
    match mem[i]? with
    | none => .error .indexError
    | some t => .ok (transitionFields t)
  | i :: j :: rest => getTransList mem (i :: j :: rest)

/-- `random.choices(range(n), weights, k)` as executed by CPython with our
weights: the length check raises ValueError on mismatch; on an empty
population, reading the last cumulative weight (`cum_weights[-1]`) raises
IndexError; a non-positive total raises ValueError; otherwise `k` indices in
`range n` are drawn — the pseudo-random draws are abstracted by the oracle
list, reduced mod `n`. -/
noncomputable def randomChoices (n : Nat) (weights : List ℝ) (k : Nat)
    (oracle : List Nat) : Except PyErr (List Nat) :=
  if weights.length ≠ n then .error .valueError
  else if weights.isEmpty then .error .indexError
  else if weights.sum ≤ 0 then .error .valueError
  else .ok ((List.range k).map fun j => oracle.getD j 0 % n)

/-- `ReplayMemory.sample(batch_size)` (modules.py lines 139-142): draws
`batch_size` indices via `random.choices` weighted by `self.probabilities`,
then gathers the records with `itemgetter`. -/
noncomputable def ReplayMemory.sample (s : ReplayMemory V) (batchSize : Nat)
    (oracle : List Nat) : Except PyErr (List Nat × List (PyVal V)) :=
  match randomChoices s.memory.length s.probabilities batchSize oracle with
  | .error e => .error e
  | .ok idxChoice =>
    match itemgetterList s.memory idxChoice with
    | .error e => .error e
    | .ok elements => .ok (idxChoice, elements)

/-- Run a sequence of `(transition, priority)` pushes into a fresh store. -/
def runPushes (c : Nat) (a : ℝ) (ps : List (Transition V × ℚ)) : ReplayMemory V :=
  ps.foldl (fun s tp => s.push tp.1 tp.2) (mkEmpty c a)

/-- One mutating client call on a `ReplayMemory`.  `sample` reads the store
but mutates neither deque (the `_probabilities` cache it reassigns is
recomputed before every read, see `ReplayMemory.probabilities`), so only its
argument is recorded. -/
inductive Op (V : Type) where
  | push (t : Transition V) (p : ℚ)
  | sample (batchSize : Nat)
  | update (indices : List Nat) (newPriorities : List ℚ)

/-- Effect of one operation on the store state.  A failing
`update_priorities` leaves behind exactly the partial mutations the source
performed before raising. -/
def ReplayMemory.applyOp (s : ReplayMemory V) : Op V → ReplayMemory V
  | .push t p => s.push t p
  | .sample _ => s
  | .update idx ps => (s.update_priorities idx ps).1

/-- Run a sequence of operations against a fresh store. -/
def runOps (c : Nat) (a : ℝ) (ops : List (Op V)) : ReplayMemory V :=
  ops.foldl ReplayMemory.applyOp (mkEmpty c a)

/-- Ghost-instrumented copy of the store state: every record and every
priority slot carries the serial number of the push it belongs to, so that
"the priority at index `i` belongs to the same push as the transition at
index `i`" becomes a statement about equal tags.  Erasing the tags
(`TReplayMemory.toPlain`) recovers the plain state, which is proved below. -/
structure TReplayMemory (V : Type) where
  capacity : Nat
  alpha : ℝ
  memory : List (Nat × Transition V)
  priorities : List (Nat × ℚ)
  pushCount : Nat

/-- Erase the ghost tags. -/
def TReplayMemory.toPlain (s : TReplayMemory V) : ReplayMemory V :=
  ⟨s.capacity, s.alpha, s.memory.map Prod.snd, s.priorities.map Prod.snd⟩

/-- Fresh tagged store. -/
def mkEmptyT (c : Nat) (a : ℝ) : TReplayMemory V :=
  ⟨c, a, [], [], 0⟩

/-- Tagged `push`: the new record and its priority receive the same fresh
serial number. -/
def TReplayMemory.push (s : TReplayMemory V) (t : Transition V) (p : ℚ) : TReplayMemory V :=
  { s with
    memory := dequeAppend s.capacity s.memory (s.pushCount, t)
    priorities := dequeAppend s.capacity s.priorities (s.pushCount, p)
    pushCount := s.pushCount + 1 }

/-- Tagged update loop: overwriting the priority value at logical index `i`
writes a value for the record currently at index `i`, so the slot keeps the
serial number of that record. -/
def tUpdLoop : List (Nat × ℚ) → List Nat → List ℚ → List (Nat × ℚ) × Option PyErr
  | prios, [], _ => (prios, none)
  | prios, _ :: _, [] => (prios, some .indexError)
  | prios, i :: is, v :: vs =>
    match prios[i]? with
    | some tv => tUpdLoop (prios.set i (tv.1, v)) is vs
    | none => (prios, some .indexError)

/-- Effect of one operation on the tagged state. -/
def TReplayMemory.applyOp (s : TReplayMemory V) : Op V → TReplayMemory V
  | .push t p => s.push t p
  | .sample _ => s
  | .update idx ps => { s with priorities := (tUpdLoop s.priorities idx ps).1 }

/-- Run a sequence of operations against a fresh tagged store. -/
def runTagged (c : Nat) (a : ℝ) (ops : List (Op V)) : TReplayMemory V :=
  ops.foldl TReplayMemory.applyOp (mkEmptyT c a)

/-- A `state_dict`: parameter names mapped to (elementwise, here scalar)
values, in insertion order.  Both networks expose one. -/
abbrev Params := List (String × ℚ)

/-- The key list of a parameter dict. -/
def pkeys (d : Params) : List String :=
  d.map Prod.fst

/-- Reading `d[k]` from a dict, as an option. -/
def lookupVal : Params → String → Option ℚ
  | [], _ => none
  | (k, v) :: rest, key => if k = key then some v else lookupVal rest key

/-- Python dict assignment `d[k] = v`: overwrites the entry when the key is
present, appends a new entry otherwise. -/
def dictSet : Params → String → ℚ → Params
  | [], key, newV => [(key, newV)]
  | (k, v) :: rest, key, newV =>
    if k = key then (k, newV) :: rest else (k, v) :: dictSet rest key newV

/-- The soft-update loop of `optimize_model` (modules.py lines 360-365):
`for key in policy_net_state_dict:
target[key] = policy[key] * tau + target[key] * (1 - tau)`.
Iterates the policy keys in order; reading `target[key]` for a key absent from
the target dict raises KeyError (the updates already made persist in the
Python original, but the loop result is then discarded, so only the error is
observable). -/
def softUpdateLoop : Params → Params → ℚ → Except PyErr Params
  | [], tgt, _ => .ok tgt
  | (k, pv) :: rest, tgt, tau =>
    match lookupVal tgt k with
    | none => .error .keyError
    | some tv => softUpdateLoop rest (dictSet tgt k (pv * tau + tv * (1 - tau))) tau

/-- The complete soft update: the transformed target `state_dict` that
`load_state_dict` then installs, or the raised error. -/
def soft_update (policyParams targetParams : Params) (tau : ℚ) : Except PyErr Params :=
  softUpdateLoop policyParams targetParams tau

/-- Concrete two-record store (capacity 2, alpha 1, both priorities 1) used
as evaluation input by counterexamples and witnesses. -/
def store11 : ReplayMemory Int :=
  { capacity := 2
    alpha := 1
    memory := [⟨1, 1, none, 1⟩, ⟨2, 2, none, 2⟩]
    priorities := [1, 1] }

/-! ### Deque lemmas and the capacity invariant (C1) -/

lemma dequeAppend_eq_lastN (c : Nat) (l : List A) (x : A) :
    dequeAppend c l x = lastN c (l ++ [x]) := by
  simp [dequeAppend, lastN]

lemma lastN_append (c : Nat) (l m : List A) :
    lastN c (lastN c l ++ m) = lastN c (l ++ m) := by
  rcases Nat.le_total l.length c with h | h
  · simp [lastN, Nat.sub_eq_zero_of_le h]
  · simp only [lastN, List.length_append, List.length_drop,
      List.drop_append_eq_append_drop, List.drop_drop]
    congr 2 <;> omega

lemma foldl_push_memory (ps : List (Transition V × ℚ)) :
    ∀ s : ReplayMemory V,
      (ps.foldl (fun s tp => s.push tp.1 tp.2) s).memory
        = List.foldl (dequeAppend s.capacity) s.memory (ps.map Prod.fst) := by
  induction ps with
  | nil => intro s; rfl
  | cons tp rest ih =>
    intro s
    exact ih (s.push tp.1 tp.2)

lemma foldl_dequeAppend_lastN (c : Nat) (xs : List A) :
    ∀ acc : List A, List.foldl (dequeAppend c) (lastN c acc) xs = lastN c (acc ++ xs) := by
  induction xs with
  | nil => intro acc; simp
  | cons x rest ih =>
    intro acc
    calc List.foldl (dequeAppend c) (lastN c acc) (x :: rest)
        = List.foldl (dequeAppend c) (lastN c (acc ++ [x])) rest := by
          rw [List.foldl_cons, dequeAppend_eq_lastN, lastN_append]
      _ = lastN c ((acc ++ [x]) ++ rest) := ih (acc ++ [x])
      _ = lastN c (acc ++ x :: rest) := by simp

/-- Claim C1: for every capacity `c > 0` and every sequence of `N > c` pushes
into a fresh store of capacity `c`, the store afterwards holds exactly the
most recent `c` pushed transitions in their original push order (the oldest
record being evicted on each overflowing push), and its length is `c`. -/
theorem push_capacity_invariant (c : Nat) (a : ℝ) (ps : List (Transition V × ℚ))
    (hc : 0 < c) (hn : c < ps.length) :
    (runPushes c a ps).memory = (ps.map Prod.fst).drop (ps.length - c) ∧
      (runPushes c a ps).memory.length = c := by
  have hmem : (runPushes c a ps).memory = lastN c (ps.map Prod.fst) := by
    rw [runPushes, foldl_push_memory]
    simpa [mkEmpty, lastN] using
      foldl_dequeAppend_lastN c (ps.map Prod.fst) ([] : List (Transition V))
  constructor
  · rw [hmem, lastN, List.length_map]
  · rw [hmem, lastN, List.length_drop, List.length_map]
    omega

/-- Witness for C1: capacity 2, three pushes; the store retains pushes 2 and 3
in order. -/
theorem push_capacity_invariant_witness :
    (0 < 2 ∧ 2 < 3) ∧
    ((runPushes 2 0 [(⟨1, 1, none, 1⟩, 1), (⟨2, 2, none, 2⟩, 1), (⟨3, 3, none, 3⟩, 1)]
        : ReplayMemory Int).memory
      = ([((⟨1, 1, none, 1⟩ : Transition Int), (1 : ℚ)), (⟨2, 2, none, 2⟩, 1),
          (⟨3, 3, none, 3⟩, 1)].map Prod.fst).drop (3 - 2) ∧
     (runPushes 2 0 [(⟨1, 1, none, 1⟩, 1), (⟨2, 2, none, 2⟩, 1), (⟨3, 3, none, 3⟩, 1)]
        : ReplayMemory Int).memory.length = 2) :=
  ⟨⟨by decide, by decide⟩,
   push_capacity_invariant 2 0
     [(⟨1, 1, none, 1⟩, 1), (⟨2, 2, none, 2⟩, 1), (⟨3, 3, none, 3⟩, 1)]
     (by decide) (by decide)⟩

/-! ### Record/priority alignment (C2) -/

lemma map_dequeAppend (c : Nat) (f : A → B) (l : List A) (x : A) :
    (dequeAppend c l x).map f = dequeAppend c (l.map f) (f x) := by
  simp [dequeAppend, List.map_drop]

lemma set_getElem_self (l : List A) : ∀ (i : Nat) (x : A), l[i]? = some x → l.set i x = l := by
  induction l with
  | nil => intro i x h; simp at h
  | cons a rest ih =>
    intro i x h
    cases i with
    | zero => simp_all
    | succ j =>
      simp only [List.getElem?_cons_succ] at h
      simp [ih j x h]

lemma tUpdLoop_map_fst (idx : List Nat) : ∀ (vs : List ℚ) (prios : List (Nat × ℚ)),
    ((tUpdLoop prios idx vs).1).map Prod.fst = prios.map Prod.fst := by
  induction idx with
  | nil => intro vs prios; rfl
  | cons i is ih =>
    intro vs prios
    cases vs with
    | nil => rfl
    | cons v vs' =>
      rcases h : prios[i]? with _ | tv
      · simp [tUpdLoop, h]
      · simp only [tUpdLoop, h]
        rw [ih, List.map_set, set_getElem_self]
        rw [List.getElem?_map, h]
        rfl

lemma tUpdLoop_map_snd (idx : List Nat) : ∀ (vs : List ℚ) (prios : List (Nat × ℚ)),
    ((tUpdLoop prios idx vs).1).map Prod.snd = (updLoop (prios.map Prod.snd) idx vs).1 := by
  induction idx with
  | nil => intro vs prios; simp [tUpdLoop, updLoop]
  | cons i is ih =>
    intro vs prios
    cases vs with
    | nil => simp [tUpdLoop, updLoop]
    | cons v vs' =>
      rcases h : prios[i]? with _ | tv
      · have hlen : prios.length ≤ i := List.getElem?_eq_none_iff.mp h
        have hnot : ¬ i < prios.length := by omega
        simp [tUpdLoop, updLoop, h, hnot]
      · have hlt : i < prios.length := (List.getElem?_eq_some_iff.mp h).1
        have hlt' : i < (prios.map Prod.snd).length := by rw [List.length_map]; exact hlt
        simp only [tUpdLoop, updLoop, h, if_pos hlt']
        rw [ih, List.map_set]

lemma applyOp_toPlain (s : TReplayMemory V) (op : Op V) :
    (s.applyOp op).toPlain = s.toPlain.applyOp op := by
  cases op with
  | push t p =>
    simp [TReplayMemory.applyOp, TReplayMemory.toPlain, TReplayMemory.push,
      ReplayMemory.applyOp, ReplayMemory.push, map_dequeAppend]
  | sample k => rfl
  | update idx ps =>
    simp [TReplayMemory.applyOp, TReplayMemory.toPlain, ReplayMemory.applyOp,
      ReplayMemory.update_priorities, tUpdLoop_map_snd]

lemma foldl_toPlain (ops : List (Op V)) : ∀ s : TReplayMemory V,
    (ops.foldl TReplayMemory.applyOp s).toPlain = ops.foldl ReplayMemory.applyOp s.toPlain := by
  induction ops with
  | nil => intro s; rfl
  | cons op rest ih =>
    intro s
    rw [List.foldl_cons, List.foldl_cons, ih, applyOp_toPlain]

lemma applyOp_tagInv (s : TReplayMemory V) (op : Op V)
    (h : s.memory.map Prod.fst = s.priorities.map Prod.fst) :
    (s.applyOp op).memory.map Prod.fst = (s.applyOp op).priorities.map Prod.fst := by
  cases op with
  | push t p =>
    simp [TReplayMemory.applyOp, TReplayMemory.push, map_dequeAppend, h]
  | sample k => exact h
  | update idx ps =>
    simpa [TReplayMemory.applyOp, tUpdLoop_map_fst] using h

lemma foldl_tagInv (ops : List (Op V)) : ∀ s : TReplayMemory V,
    s.memory.map Prod.fst = s.priorities.map Prod.fst →
    (ops.foldl TReplayMemory.applyOp s).memory.map Prod.fst
      = (ops.foldl TReplayMemory.applyOp s).priorities.map Prod.fst := by
  induction ops with
  | nil => intro s h; exact h
  | cons op rest ih =>
    intro s h
    exact ih _ (applyOp_tagInv s op h)

/-- Claim C2: after any sequence of push, sample and update_priorities
operations, the two parallel sequences have equal length, and the record and
the priority at every logical index belong to the same push.  The per-push
provenance is expressed through the ghost-tagged state, whose tag erasure is
proved equal to the plain source-code state produced by the same operations:
at every index the record tag and the priority tag coincide. -/
theorem records_priorities_alignment (c : Nat) (a : ℝ) (ops : List (Op V)) :
    (runTagged c a ops).toPlain = runOps c a ops ∧
    (runTagged c a ops).priorities.length = (runTagged c a ops).memory.length ∧
    (runTagged c a ops).memory.map Prod.fst = (runTagged c a ops).priorities.map Prod.fst := by
  have htag := foldl_tagInv ops (mkEmptyT c a) rfl
  refine ⟨foldl_toPlain ops (mkEmptyT c a), ?_, htag⟩
  have := congrArg List.length htag
  simpa using this.symm

/-! ### Probability vector (C3, C6) -/

lemma sum_map_div (l : List ℝ) (c : ℝ) : (l.map fun x => x / c).sum = l.sum / c := by
  induction l with
  | nil => simp
  | cons x rest ih => simp [ih, add_div]

lemma powered_pos (s : ReplayMemory V) (hpos : ∀ p ∈ s.priorities, 0 < p) :
    ∀ w ∈ poweredWeights s, 0 < w := by
  intro w hw
  rw [poweredWeights] at hw
  rcases List.mem_map.mp hw with ⟨p, hp, rfl⟩
  have hp0 : (0 : ℝ) < (p : ℝ) := by exact_mod_cast hpos p hp
  exact Real.rpow_pos_of_pos hp0 s.alpha

lemma poweredWeights_ne_nil (s : ReplayMemory V) (hne : s.priorities ≠ []) :
    poweredWeights s ≠ [] := by
  rw [poweredWeights]
  intro h
  exact hne (List.map_eq_nil_iff.mp h)

lemma probabilities_sum_eq_one (s : ReplayMemory V) (hne : s.priorities ≠ [])
    (hpos : ∀ p ∈ s.priorities, 0 < p) : s.probabilities.sum = 1 := by
  have hT : 0 < (poweredWeights s).sum :=
    List.sum_pos _ (powered_pos s hpos) (poweredWeights_ne_nil s hne)
  rw [ReplayMemory.probabilities, sum_map_div, div_self (ne_of_gt hT)]

/-- Claim C3: for a non-empty store with strictly positive priorities,
`probabilities` returns at every index exactly
`priority_i ^ alpha / sum_j (priority_j ^ alpha)`, and the vector sums to `1`
(in particular within the `1e-6` tolerance).  The vector is a pure function of
the current priorities and alpha (recomputed on each call). -/
theorem probabilities_spec (s : ReplayMemory V) (hne : s.priorities ≠ [])
    (hpos : ∀ p ∈ s.priorities, 0 < p) :
    (∀ (i : Nat) (p : ℚ), s.priorities[i]? = some p →
      s.probabilities[i]? = some ((p : ℝ) ^ s.alpha / (poweredWeights s).sum)) ∧
    s.probabilities.sum = 1 ∧
    |s.probabilities.sum - 1| ≤ 1 / 1000000 := by
  refine ⟨?_, probabilities_sum_eq_one s hne hpos, ?_⟩
  · intro i p hp
    rw [ReplayMemory.probabilities, List.getElem?_map, poweredWeights, List.getElem?_map, hp]
    rfl
  · rw [probabilities_sum_eq_one s hne hpos]
    norm_num

/-- Witness for C3: a store holding two records with priorities 1 and 3 has a
probability vector summing to exactly 1. -/
theorem probabilities_spec_witness :
    ({ capacity := 2, alpha := 1, memory := [⟨1, 1, none, 1⟩, ⟨2, 2, none, 2⟩],
       priorities := [1, 3] } : ReplayMemory Int).probabilities.sum = 1 :=
  (probabilities_spec _ (by decide) (by decide)).2.1

/-- Claim C6: with `alpha = 0` the probability vector of a non-empty store of
`n` records with positive priorities is exactly uniform: every index carries
probability `1 / n`. -/
theorem probabilities_uniform_alpha_zero (s : ReplayMemory V)
    (h0 : s.alpha = 0) (hne : s.priorities ≠ []) (hpos : ∀ p ∈ s.priorities, 0 < p)
    (hlen : s.memory.length = s.priorities.length) :
    ∀ i < s.memory.length, s.probabilities[i]? = some (1 / (s.memory.length : ℝ)) := by
  intro i hi
  have hpow : poweredWeights s = List.replicate s.priorities.length (1 : ℝ) := by
    rw [poweredWeights, h0]
    simp only [Real.rpow_zero]
    exact List.map_const' _ _
  have hsum : (List.replicate s.priorities.length (1 : ℝ)).sum = (s.priorities.length : ℝ) := by
    rw [List.sum_replicate, nsmul_eq_mul, mul_one]
  have hi' : i < s.priorities.length := hlen ▸ hi
  rw [ReplayMemory.probabilities, hpow, hsum, List.getElem?_map,
    List.getElem?_replicate_of_lt hi', hlen]
  rfl

/-- Witness for C6: alpha 0, two records with priorities 2 and 5; index 0 gets
probability 1/2. -/
theorem probabilities_uniform_alpha_zero_witness :
    ({ capacity := 2, alpha := 0, memory := [⟨1, 1, none, 1⟩, ⟨2, 2, none, 2⟩],
       priorities := [2, 5] } : ReplayMemory Int).probabilities[0]?
      = some (1 / ((2 : Nat) : ℝ)) :=
  probabilities_uniform_alpha_zero _ rfl (by decide) (by decide) rfl 0 (by decide)

/-! ### update_priorities semantics (C4, C5) -/

lemma updLoop_length (idx : List Nat) : ∀ (vs prios : List ℚ),
    ((updLoop prios idx vs).1).length = prios.length := by
  induction idx with
  | nil => intro vs prios; simp [updLoop]
  | cons i is ih =>
    intro vs prios
    cases vs with
    | nil => simp [updLoop]
    | cons v vs' =>
      by_cases h : i < prios.length
      · simp only [updLoop, if_pos h]
        rw [ih]
        exact List.length_set prios i v
      · simp [updLoop, h]

lemma updLoop_getElem_not_mem (idx : List Nat) : ∀ (vs prios : List ℚ) (j : Nat), j ∉ idx →
    ((updLoop prios idx vs).1)[j]? = prios[j]? := by
  induction idx with
  | nil => intro vs prios j _; simp [updLoop]
  | cons i is ih =>
    intro vs prios j hj
    have hji : i ≠ j := fun h => hj (h ▸ List.mem_cons_self i is)
    have hjs : j ∉ is := fun h => hj (List.mem_cons_of_mem i h)
    cases vs with
    | nil => simp [updLoop]
    | cons v vs' =>
      by_cases h : i < prios.length
      · simp only [updLoop, if_pos h]
        rw [ih vs' _ j hjs, List.getElem?_set_ne hji]
      · simp [updLoop, h]

lemma updLoop_spec (idx : List Nat) : ∀ (vs prios : List ℚ),
    idx.length = vs.length → idx.Nodup → (∀ i ∈ idx, i < prios.length) →
    (updLoop prios idx vs).2 = none ∧
    ∀ (j i : Nat), idx[j]? = some i → ((updLoop prios idx vs).1)[i]? = vs[j]? := by
  induction idx with
  | nil =>
    intro vs prios _ _ _
    exact ⟨by simp [updLoop], fun j i h => by simp at h⟩
  | cons i is ih =>
    intro vs prios hlen hnd hvalid
    cases vs with
    | nil => simp at hlen
    | cons v vs' =>
      have hi : i < prios.length := hvalid i (List.mem_cons_self i is)
      have hnd' := List.nodup_cons.mp hnd
      have hvalid' : ∀ i' ∈ is, i' < (prios.set i v).length := by
        intro i' hi'
        rw [List.length_set]
        exact hvalid i' (List.mem_cons_of_mem i hi')
      have hlen' : is.length = vs'.length := by
        simp only [List.length_cons] at hlen; omega
      obtain ⟨he, hs⟩ := ih vs' (prios.set i v) hlen' hnd'.2 hvalid'
      refine ⟨by simp only [updLoop, if_pos hi]; exact he, ?_⟩
      intro j i' hj
      cases j with
      | zero =>
        simp only [List.getElem?_cons_zero] at hj
        obtain rfl : i = i' := by injection hj
        simp only [updLoop, if_pos hi]
        rw [updLoop_getElem_not_mem is vs' _ i hnd'.1, List.getElem?_set_self hi]
        simp
      | succ j' =>
        simp only [List.getElem?_cons_succ] at hj ⊢
        simp only [updLoop, if_pos hi]
        exact hs j' i' hj

/-- Counterexample for C4: the source performs no epsilon clamping.  Pushing
two records with priority 1 and then calling
`update_priorities([0, 1], [-3, 0])` leaves the stored priorities `[-3, 0]`,
both of which are non-positive — contradicting the claim that both stored
priorities become a fixed positive epsilon. -/
theorem update_priorities_no_clamp_cex :
    ((store11.update_priorities [0, 1] [-3, 0]).1.priorities = [-3, 0]) ∧
    ((-3 : ℚ) ≤ 0 ∧ (0 : ℚ) ≤ 0) := by
  decide

/-- Claim C4 (amended): `update_priorities` overwrites the priority at each
given valid index with the raw given value — `float(p)`, with no
`max(p, epsilon)` clamping — so zero and negative priorities are stored
as-is. -/
theorem update_priorities_raw_overwrite (s : ReplayMemory V) (idx : List Nat) (vs : List ℚ)
    (hlen : idx.length = vs.length) (hnd : idx.Nodup)
    (hvalid : ∀ i ∈ idx, i < s.priorities.length) :
    (s.update_priorities idx vs).2 = none ∧
    ∀ (j i : Nat), idx[j]? = some i →
      ((s.update_priorities idx vs).1).priorities[i]? = vs[j]? :=
  updLoop_spec idx vs s.priorities hlen hnd hvalid

/-- Witness for C4 (amended) at a two-record store. -/
theorem update_priorities_raw_overwrite_witness :
    (([0, 1] : List Nat).length = ([5, 7] : List ℚ).length ∧ ([0, 1] : List Nat).Nodup) ∧
    ((store11.update_priorities [0, 1] [5, 7]).2 = none ∧
      ∀ (j i : Nat), ([0, 1] : List Nat)[j]? = some i →
        ((store11.update_priorities [0, 1] [5, 7]).1).priorities[i]? = ([5, 7] : List ℚ)[j]?) :=
  ⟨⟨by decide, by decide⟩,
    update_priorities_raw_overwrite store11 [0, 1] [5, 7] (by decide) (by decide) (by decide)⟩

lemma updLoop_ok (idx : List Nat) : ∀ (vs prios : List ℚ),
    idx.length ≤ vs.length → (∀ i ∈ idx, i < prios.length) →
    (updLoop prios idx vs).2 = none := by
  induction idx with
  | nil => intro vs prios _ _; simp [updLoop]
  | cons i is ih =>
    intro vs prios hle hvalid
    cases vs with
    | nil => simp at hle
    | cons v vs' =>
      have hi : i < prios.length := hvalid i (List.mem_cons_self i is)
      simp only [updLoop, if_pos hi]
      apply ih vs' (prios.set i v)
      · simp only [List.length_cons] at hle; omega
      · intro i' hi'
        rw [List.length_set]
        exact hvalid i' (List.mem_cons_of_mem i hi')

lemma updLoop_partial (vs : List ℚ) : ∀ (idx : List Nat) (prios : List ℚ),
    vs.length < idx.length → (∀ i ∈ idx.take vs.length, i < prios.length) →
    (updLoop prios idx vs).2 = some PyErr.indexError ∧
    (updLoop prios idx vs).1 = (updLoop prios (idx.take vs.length) vs).1 := by
  induction vs with
  | nil =>
    intro idx prios hlt _
    cases idx with
    | nil => simp at hlt
    | cons i is => exact ⟨by simp [updLoop], by simp [updLoop]⟩
  | cons v vs' ih =>
    intro idx prios hlt hvalid
    cases idx with
    | nil => simp at hlt
    | cons i is =>
      have hi : i < prios.length := by
        refine hvalid i ?_
        rw [List.length_cons, List.take_succ_cons]
        exact List.mem_cons_self i _
      have h1 : vs'.length < is.length := by
        simp only [List.length_cons] at hlt; omega
      have h2 : ∀ i' ∈ is.take vs'.length, i' < (prios.set i v).length := by
        intro i' hi'
        rw [List.length_set]
        refine hvalid i' ?_
        rw [List.length_cons, List.take_succ_cons]
        exact List.mem_cons_of_mem i hi'
      obtain ⟨he, hst⟩ := ih is (prios.set i v) h1 h2
      constructor
      · simp only [updLoop, if_pos hi]
        exact he
      · simp only [List.length_cons, List.take_succ_cons, updLoop, if_pos hi]
        exact hst

/-- Counterexample for C5: `update_priorities([0], [5, 7])` has mismatched
argument lengths (1 vs 2), yet the source raises nothing and mutates the
store: the priorities change from `[1, 1]` to `[5, 1]` — contradicting the
claim that a length mismatch fails with a ValueError-equivalent and leaves
the priorities unchanged. -/
theorem update_priorities_length_mismatch_cex :
    (([0] : List Nat).length ≠ ([5, 7] : List ℚ).length) ∧
    ((store11.update_priorities [0] [5, 7]).2 = none) ∧
    ((store11.update_priorities [0] [5, 7]).1.priorities = [5, 1]) := by
  decide

/-- Claim C5 (amended): no length check exists.  When `indices` is no longer
than `new_priorities` (all indices valid), the call completes silently,
ignoring the surplus values; when `indices` is strictly longer, reading
`new_priorities[choice_idx]` raises an IndexError-equivalent — not a
ValueError — after the updates for the paired portion have already been
applied (partial mutation, no rollback). -/
theorem update_priorities_length_mismatch (s : ReplayMemory V) (idx : List Nat) (vs : List ℚ) :
    (idx.length ≤ vs.length → (∀ i ∈ idx, i < s.priorities.length) →
      (s.update_priorities idx vs).2 = none) ∧
    (vs.length < idx.length → (∀ i ∈ idx.take vs.length, i < s.priorities.length) →
      (s.update_priorities idx vs).2 = some PyErr.indexError ∧
        ((s.update_priorities idx vs).1).priorities
          = ((s.update_priorities (idx.take vs.length) vs).1).priorities) := by
  constructor
  · intro h1 h2
    exact updLoop_ok idx vs s.priorities h1 h2
  · intro h1 h2
    exact updLoop_partial vs idx s.priorities h1 h2

/-- Witness for C5 (amended): two indices but a single new priority — the
call raises IndexError and the state equals the one-pair partial update. -/
theorem update_priorities_length_mismatch_witness :
    (([5] : List ℚ).length < ([0, 1] : List Nat).length) ∧
    ((store11.update_priorities [0, 1] [5]).2 = some PyErr.indexError ∧
      ((store11.update_priorities [0, 1] [5]).1).priorities
        = ((store11.update_priorities (([0, 1] : List Nat).take ([5] : List ℚ).length)
            [5]).1).priorities) :=
  ⟨by decide,
    (update_priorities_length_mismatch store11 [0, 1] [5]).2 (by decide) (by decide)⟩

/-! ### Sampling from an empty store (C7) -/

/-- Counterexample for C7: sampling from an empty store raises the bare
IndexError-equivalent coming from inside `random.choices` (reading the last
cumulative weight of the empty weight sequence) — not the clear
insufficient-samples error the claim describes. -/
theorem sample_empty_cex :
    (mkEmpty 5 0 : ReplayMemory Int).sample 4 [] = .error PyErr.indexError ∧
    PyErr.indexError ≠ PyErr.insufficientSamples := by
  exact ⟨rfl, by decide⟩

/-- Claim C7 (amended): for every batch size, sampling from an empty store
does fail — it never returns a degenerate or empty batch — but the failure is
the IndexError-equivalent raised inside `random.choices` on the empty weight
sequence, not a descriptive insufficient-samples error. -/
theorem sample_empty_fails (c : Nat) (a : ℝ) (k : Nat) (oracle : List Nat) :
    (mkEmpty c a : ReplayMemory V).sample k oracle = .error PyErr.indexError := rfl

/-! ### Batch-size-one unpacking in sample (C10) -/

lemma probabilities_length (s : ReplayMemory V) :
    s.probabilities.length = s.priorities.length := by
  rw [ReplayMemory.probabilities, List.length_map, poweredWeights, List.length_map]

lemma randomChoices_pos (n : Nat) (w : List ℝ) (k : Nat) (oracle : List Nat)
    (hlen : w.length = n) (hsum : 0 < w.sum) :
    randomChoices n w k oracle = .ok ((List.range k).map fun j => oracle.getD j 0 % n) := by
  have hne : w.isEmpty = false := by
    cases w with
    | nil => simp at hsum
    | cons x xs => rfl
  rw [randomChoices, if_neg (not_not_intro hlen)]
  rw [if_neg (show ¬ w.isEmpty = true by simp [hne])]
  rw [if_neg (not_le.mpr hsum)]

lemma getTransList_ok (mem : List (Transition V)) : ∀ idxs : List Nat,
    (∀ i ∈ idxs, i < mem.length) →
    ∃ elems, getTransList mem idxs = .ok elems ∧ elems.length = idxs.length ∧
      ∀ (j i : Nat), idxs[j]? = some i →
        ∃ t, mem[i]? = some t ∧ elems[j]? = some (PyVal.tr t) := by
  intro idxs
  induction idxs with
  | nil =>
    intro _
    exact ⟨[], rfl, rfl, fun j i h => by simp at h⟩
  | cons i rest ih =>
    intro hvalid
    have hi : i < mem.length := hvalid i (List.mem_cons_self i rest)
    obtain ⟨t, ht⟩ : ∃ t, mem[i]? = some t := ⟨_, List.getElem?_eq_getElem hi⟩
    obtain ⟨es, he, helen, hspec⟩ := ih fun i' h => hvalid i' (List.mem_cons_of_mem i h)
    refine ⟨PyVal.tr t :: es, ?_, by simp [helen], ?_⟩
    · simp only [getTransList, ht, he]
    · intro j i' hj
      cases j with
      | zero =>
        simp only [List.getElem?_cons_zero] at hj
        obtain rfl : i = i' := by injection hj
        exact ⟨t, ht, by simp⟩
      | succ j' =>
        simp only [List.getElem?_cons_succ] at hj ⊢
        exact hspec j' i' hj

lemma itemgetterList_two (mem : List (Transition V)) (idxs : List Nat) (h : 2 ≤ idxs.length) :
    itemgetterList mem idxs = getTransList mem idxs := by
  cases idxs with
  | nil => simp at h
  | cons a rest =>
    cases rest with
    | nil => simp at h
    | cons b rest' => rfl

/-- Claim C10: on a non-empty store (positive priorities, aligned deques),
`sample 1` never returns a one-element list holding the sampled transition:
`itemgetter` with a single index returns the record itself and `list()`
iterates the namedtuple, so the transitions component is the four-field list
`[state, action, next_state, reward]`.  For every batch size of at least two,
`sample` returns a list of exactly `batch_size` whole `Transition` records. -/
theorem sample_single_unpacks (s : ReplayMemory V) (hne : s.priorities ≠ [])
    (hpos : ∀ p ∈ s.priorities, 0 < p) (hlen : s.memory.length = s.priorities.length) :
    (∀ oracle : List Nat, ∃ (i : Nat) (t : Transition V),
      s.memory[i]? = some t ∧
      s.sample 1 oracle = .ok ([i], transitionFields t) ∧
      transitionFields t ≠ [PyVal.tr t] ∧ (transitionFields t).length = 4) ∧
    (∀ (k : Nat) (oracle : List Nat), 2 ≤ k →
      ∃ (idxs : List Nat) (elems : List (PyVal V)),
        s.sample k oracle = .ok (idxs, elems) ∧ idxs.length = k ∧ elems.length = k ∧
        ∀ (j i : Nat), idxs[j]? = some i →
          ∃ t, s.memory[i]? = some t ∧ elems[j]? = some (PyVal.tr t)) := by
  have hn : 0 < s.memory.length := by
    rw [hlen]
    exact List.length_pos.mpr hne
  have hsum : s.probabilities.sum = 1 := probabilities_sum_eq_one s hne hpos
  have hrc : ∀ (k : Nat) (oracle : List Nat),
      randomChoices s.memory.length s.probabilities k oracle
        = .ok ((List.range k).map fun j => oracle.getD j 0 % s.memory.length) := by
    intro k oracle
    apply randomChoices_pos
    · rw [probabilities_length, hlen]
    · rw [hsum]
      norm_num
  have hmod : ∀ (j : Nat) (oracle : List Nat),
      oracle.getD j 0 % s.memory.length < s.memory.length :=
    fun j oracle => Nat.mod_lt _ hn
  constructor
  · intro oracle
    obtain ⟨t, ht⟩ : ∃ t, s.memory[oracle.getD 0 0 % s.memory.length]? = some t :=
      ⟨_, List.getElem?_eq_getElem (hmod 0 oracle)⟩
    refine ⟨oracle.getD 0 0 % s.memory.length, t, ht, ?_, ?_, rfl⟩
    · have hr1 : List.range 1 = [0] := rfl
      simp only [ReplayMemory.sample, hrc 1 oracle, hr1, List.map_cons, List.map_nil]
      simp only [itemgetterList, ht]
    · intro hcontr
      have hlen4 := congrArg List.length hcontr
      simp [transitionFields] at hlen4
  · intro k oracle hk
    obtain ⟨k', rfl⟩ : ∃ k', k = k' + 2 := ⟨k - 2, by omega⟩
    have hrc2 := hrc (k' + 2) oracle
    set idxs : List Nat := (List.range (k' + 2)).map fun j => oracle.getD j 0 % s.memory.length
      with hidxs
    have hvalid : ∀ i ∈ idxs, i < s.memory.length := by
      intro i hi
      rw [hidxs] at hi
      rcases List.mem_map.mp hi with ⟨j, _, rfl⟩
      exact hmod j oracle
    have hlen2 : idxs.length = k' + 2 := by
      rw [hidxs, List.length_map, List.length_range]
    obtain ⟨elems, he, helen, hspec⟩ := getTransList_ok s.memory idxs hvalid
    refine ⟨idxs, elems, ?_, hlen2, by rw [helen, hlen2], hspec⟩
    simp only [ReplayMemory.sample, hrc2]
    rw [itemgetterList_two s.memory idxs (by omega), he]

/-- Witness for C10: a two-record store sampled with batch size one; the
returned elements are the four fields, not the record. -/
theorem sample_single_unpacks_witness :
    (store11.priorities ≠ [] ∧ ∀ p ∈ store11.priorities, 0 < p) ∧
    (∃ (i : Nat) (t : Transition Int),
      store11.memory[i]? = some t ∧
      store11.sample 1 [0] = .ok ([i], transitionFields t) ∧
      transitionFields t ≠ [PyVal.tr t] ∧ (transitionFields t).length = 4) :=
  ⟨⟨by decide, by decide⟩,
    (sample_single_unpacks store11 (by decide) (by decide) (by decide)).1 [0]⟩

/-! ### Soft update (C8, C9) -/

lemma pkeys_cons (k0 : String) (v0 : ℚ) (rest : Params) :
    pkeys ((k0, v0) :: rest) = k0 :: pkeys rest := rfl

lemma pkeys_dictSet (d : Params) : ∀ (k : String) (v : ℚ), k ∈ pkeys d →
    pkeys (dictSet d k v) = pkeys d := by
  induction d with
  | nil => intro k v h; simp [pkeys] at h
  | cons kv rest ih =>
    obtain ⟨k0, v0⟩ := kv
    intro k v h
    by_cases hk : k0 = k
    · simp [dictSet, hk, pkeys]
    · have h' : k ∈ pkeys rest := by
        rw [pkeys_cons, List.mem_cons] at h
        rcases h with h | h
        · exact absurd h.symm hk
        · exact h
      simp [dictSet, hk, pkeys_cons, ih k v h']

lemma lookupVal_dictSet_self (d : Params) : ∀ (k : String) (v : ℚ),
    lookupVal (dictSet d k v) k = some v := by
  induction d with
  | nil => intro k v; simp [dictSet, lookupVal]
  | cons kv rest ih =>
    obtain ⟨k0, v0⟩ := kv
    intro k v
    by_cases hk : k0 = k
    · simp [dictSet, hk, lookupVal]
    · simp [dictSet, hk, lookupVal, ih]

lemma lookupVal_dictSet_ne (d : Params) : ∀ (k k' : String) (v : ℚ), k' ≠ k →
    lookupVal (dictSet d k v) k' = lookupVal d k' := by
  induction d with
  | nil =>
    intro k k' v h
    simp only [dictSet, lookupVal]
    rw [if_neg fun hh => h hh.symm]
  | cons kv rest ih =>
    obtain ⟨k0, v0⟩ := kv
    intro k k' v h
    by_cases hk : k0 = k
    · subst hk
      simp only [dictSet, if_pos rfl, lookupVal]
      rw [if_neg fun hh => h hh.symm, if_neg fun hh => h hh.symm]
    · simp only [dictSet, if_neg hk, lookupVal]
      by_cases hk' : k0 = k'
      · rw [if_pos hk', if_pos hk']
      · rw [if_neg hk', if_neg hk', ih k k' v h]

lemma lookupVal_isSome (d : Params) : ∀ k : String, k ∈ pkeys d →
    ∃ v, lookupVal d k = some v := by
  induction d with
  | nil => intro k h; simp [pkeys] at h
  | cons kv rest ih =>
    obtain ⟨k0, v0⟩ := kv
    intro k h
    by_cases hk : k0 = k
    · exact ⟨v0, by simp [lookupVal, hk]⟩
    · rw [pkeys_cons, List.mem_cons] at h
      rcases h with h | h
      · exact absurd h.symm hk
      · obtain ⟨v, hv⟩ := ih k h
        exact ⟨v, by simp [lookupVal, hk, hv]⟩

lemma lookupVal_eq_none (d : Params) : ∀ k : String, k ∉ pkeys d →
    lookupVal d k = none := by
  induction d with
  | nil => intro k _; rfl
  | cons kv rest ih =>
    obtain ⟨k0, v0⟩ := kv
    intro k h
    rw [pkeys_cons, List.mem_cons] at h
    push_neg at h
    simp only [lookupVal]
    rw [if_neg fun hh => h.1 hh.symm, ih k h.2]

lemma lookupVal_some_mem (d : Params) (k : String) (v : ℚ)
    (h : lookupVal d k = some v) : k ∈ pkeys d := by
  by_contra hk
  rw [lookupVal_eq_none d k hk] at h
  exact Option.noConfusion h

lemma softUpdateLoop_spec (tau : ℚ) (ps : List (String × ℚ)) : ∀ tgt : Params,
    (pkeys ps).Nodup → (∀ k ∈ pkeys ps, k ∈ pkeys tgt) →
    ∃ tgt', softUpdateLoop ps tgt tau = .ok tgt' ∧
      pkeys tgt' = pkeys tgt ∧
      (∀ k : String, k ∉ pkeys ps → lookupVal tgt' k = lookupVal tgt k) ∧
      (∀ (k : String) (pv tv : ℚ), lookupVal ps k = some pv → lookupVal tgt k = some tv →
        lookupVal tgt' k = some (pv * tau + tv * (1 - tau))) := by
  induction ps with
  | nil =>
    intro tgt _ _
    exact ⟨tgt, rfl, rfl, fun k _ => rfl, fun k pv tv hp _ => by simp [lookupVal] at hp⟩
  | cons kv rest ih =>
    obtain ⟨k0, pv0⟩ := kv
    intro tgt hnd hsub
    have hk0 : k0 ∈ pkeys tgt := hsub k0 (by rw [pkeys_cons]; exact List.mem_cons_self _ _)
    obtain ⟨tv0, htv0⟩ := lookupVal_isSome tgt k0 hk0
    have hnd0 : k0 ∉ pkeys rest := by
      rw [pkeys_cons] at hnd
      exact (List.nodup_cons.mp hnd).1
    have hndr : (pkeys rest).Nodup := by
      rw [pkeys_cons] at hnd
      exact (List.nodup_cons.mp hnd).2
    have hkeys1 : pkeys (dictSet tgt k0 (pv0 * tau + tv0 * (1 - tau))) = pkeys tgt :=
      pkeys_dictSet tgt k0 _ hk0
    have hsub' : ∀ k ∈ pkeys rest, k ∈ pkeys (dictSet tgt k0 (pv0 * tau + tv0 * (1 - tau))) := by
      intro k hk
      rw [hkeys1]
      exact hsub k (by rw [pkeys_cons]; exact List.mem_cons_of_mem _ hk)
    obtain ⟨tgt', hrun, hkeys', hout, hval⟩ :=
      ih (dictSet tgt k0 (pv0 * tau + tv0 * (1 - tau))) hndr hsub'
    refine ⟨tgt', ?_, by rw [hkeys', hkeys1], ?_, ?_⟩
    · simp only [softUpdateLoop, htv0, hrun]
    · intro k hk
      rw [pkeys_cons, List.mem_cons] at hk
      push_neg at hk
      rw [hout k hk.2, lookupVal_dictSet_ne tgt k0 k _ hk.1]
    · intro k pv tv hp ht
      by_cases hkk : k0 = k
      · subst hkk
        simp only [lookupVal, if_pos rfl] at hp
        obtain rfl : pv0 = pv := by injection hp
        rw [htv0] at ht
        obtain rfl : tv0 = tv := by injection ht
        rw [hout k0 hnd0, lookupVal_dictSet_self]
      · simp only [lookupVal, if_neg hkk] at hp
        have ht1 : lookupVal (dictSet tgt k0 (pv0 * tau + tv0 * (1 - tau))) k = some tv := by
          rw [lookupVal_dictSet_ne tgt k0 k _ fun hh => hkk hh.symm]
          exact ht
        exact hval k pv tv hp ht1

/-- Claim C8: when the policy and target key sets are identical and
`tau ∈ (0, 1]`, the soft update succeeds and sets
`target[k] = tau * policy[k] + (1 - tau) * target[k]` for every key `k`;
at `tau = 1` the updated target equals the policy exactly. -/
theorem soft_update_convex_combination (policyParams targetParams : Params) (tau : ℚ)
    (htau0 : 0 < tau) (htau1 : tau ≤ 1)
    (hnd : (pkeys policyParams).Nodup)
    (hkeys : ∀ k : String, k ∈ pkeys policyParams ↔ k ∈ pkeys targetParams) :
    ∃ tgt', soft_update policyParams targetParams tau = .ok tgt' ∧
      (∀ (k : String) (pv tv : ℚ), lookupVal policyParams k = some pv →
        lookupVal targetParams k = some tv →
        lookupVal tgt' k = some (tau * pv + (1 - tau) * tv)) ∧
      (tau = 1 → ∀ k : String, lookupVal tgt' k = lookupVal policyParams k) := by
  obtain ⟨tgt', hrun, hkeys', hout, hval⟩ :=
    softUpdateLoop_spec tau policyParams targetParams hnd fun k hk => (hkeys k).mp hk
  refine ⟨tgt', hrun, ?_, ?_⟩
  · intro k pv tv hp ht
    rw [hval k pv tv hp ht]
    congr 1
    ring
  · rintro rfl k
    by_cases hk : k ∈ pkeys policyParams
    · obtain ⟨pv, hpv⟩ := lookupVal_isSome policyParams k hk
      obtain ⟨tv, htv⟩ := lookupVal_isSome targetParams k ((hkeys k).mp hk)
      rw [hval k pv tv hpv htv, hpv]
      congr 1
      ring
    · rw [hout k hk, lookupVal_eq_none targetParams k fun hh => hk ((hkeys k).mpr hh),
        lookupVal_eq_none policyParams k hk]

/-- Witness for C8 at tau = 1 on two-key parameter sets with equal keys. -/
theorem soft_update_convex_combination_witness :
    ((0 : ℚ) < 1 ∧ (1 : ℚ) ≤ 1) ∧
    (∃ tgt', soft_update [("a", 2), ("b", 4)] [("a", 0), ("b", 8)] 1 = .ok tgt' ∧
      (∀ (k : String) (pv tv : ℚ), lookupVal [("a", 2), ("b", 4)] k = some pv →
        lookupVal [("a", 0), ("b", 8)] k = some tv →
        lookupVal tgt' k = some (1 * pv + (1 - 1) * tv)) ∧
      ((1 : ℚ) = 1 → ∀ k : String, lookupVal tgt' k = lookupVal [("a", 2), ("b", 4)] k)) :=
  ⟨⟨by decide, by decide⟩,
    soft_update_convex_combination [("a", 2), ("b", 4)] [("a", 0), ("b", 8)] 1
      (by decide) (by decide) (by decide) fun k => Iff.rfl⟩

lemma softUpdateLoop_missing_key (tau : ℚ) (ps : List (String × ℚ)) : ∀ tgt : Params,
    (∃ k ∈ pkeys ps, k ∉ pkeys tgt) →
    softUpdateLoop ps tgt tau = .error PyErr.keyError := by
  induction ps with
  | nil =>
    rintro tgt ⟨k, hk, _⟩
    simp [pkeys] at hk
  | cons kv rest ih =>
    obtain ⟨k0, pv0⟩ := kv
    rintro tgt ⟨k, hk, hknot⟩
    cases hl : lookupVal tgt k0 with
    | none => simp [softUpdateLoop, hl]
    | some tv0 =>
      have hk0 : k0 ∈ pkeys tgt := lookupVal_some_mem tgt k0 tv0 hl
      have hkr : k ∈ pkeys rest := by
        rw [pkeys_cons, List.mem_cons] at hk
        rcases hk with hk | hk
        · exact absurd (hk ▸ hk0) hknot
        · exact hk
      simp only [softUpdateLoop, hl]
      refine ih _ ⟨k, hkr, ?_⟩
      rw [pkeys_dictSet tgt k0 _ hk0]
      exact hknot

lemma softUpdateLoop_ok_of_keys (tau : ℚ) (ps : List (String × ℚ)) : ∀ tgt : Params,
    (∀ k ∈ pkeys ps, k ∈ pkeys tgt) →
    ∃ tgt', softUpdateLoop ps tgt tau = .ok tgt' := by
  induction ps with
  | nil => intro tgt _; exact ⟨tgt, rfl⟩
  | cons kv rest ih =>
    obtain ⟨k0, pv0⟩ := kv
    intro tgt hsub
    have hk0 : k0 ∈ pkeys tgt := hsub k0 (by rw [pkeys_cons]; exact List.mem_cons_self _ _)
    obtain ⟨tv0, htv0⟩ := lookupVal_isSome tgt k0 hk0
    have hsub' : ∀ k ∈ pkeys rest, k ∈ pkeys (dictSet tgt k0 (pv0 * tau + tv0 * (1 - tau))) := by
      intro k hk
      rw [pkeys_dictSet tgt k0 _ hk0]
      exact hsub k (by rw [pkeys_cons]; exact List.mem_cons_of_mem _ hk)
    obtain ⟨tgt', hrun⟩ := ih (dictSet tgt k0 (pv0 * tau + tv0 * (1 - tau))) hsub'
    exact ⟨tgt', by simp only [softUpdateLoop, htv0, hrun]⟩

/-- Counterexample for C9: a key present only in the target parameter set does
not make the soft update fail.  With policy keys {a} and target keys {a, b}
the key sets differ, yet the update completes and returns
{a: 3/2, b: 3} at tau = 1/2 — contradicting the claim that a key-set
difference in either direction is a fatal error. -/
theorem soft_update_extra_target_key_cex :
    ("b" ∈ pkeys [("a", 2), ("b", 3)] ∧ "b" ∉ pkeys [("a", (1 : ℚ))]) ∧
    soft_update [("a", 1)] [("a", 2), ("b", 3)] (1 / 2) = .ok [("a", 3 / 2), ("b", 3)] :=
  ⟨⟨by decide, by decide⟩, by norm_num [soft_update, softUpdateLoop, lookupVal, dictSet]⟩

/-- Claim C9 (amended): the soft-update loop iterates the policy keys only,
so it fails (with a KeyError-equivalent) precisely when some policy key is
missing from the target set; a key present only in the target set causes no
error and the update completes. -/
theorem soft_update_key_mismatch (policyParams targetParams : Params) (tau : ℚ) :
    ((∃ k ∈ pkeys policyParams, k ∉ pkeys targetParams) →
      soft_update policyParams targetParams tau = .error PyErr.keyError) ∧
    ((∀ k ∈ pkeys policyParams, k ∈ pkeys targetParams) →
      ∃ tgt', soft_update policyParams targetParams tau = .ok tgt') :=
  ⟨softUpdateLoop_missing_key tau policyParams targetParams,
   softUpdateLoop_ok_of_keys tau policyParams targetParams⟩

/-- Witness for C9 (amended): policy key c is missing from the target, and
the update fails with the KeyError-equivalent. -/
theorem soft_update_key_mismatch_witness :
    ("c" ∈ pkeys [("a", 1), ("c", 2)] ∧ "c" ∉ pkeys [("a", (2 : ℚ))]) ∧
    soft_update [("a", 1), ("c", 2)] [("a", 2)] (1 / 2) = .error PyErr.keyError :=
  ⟨⟨by decide, by decide⟩,
    (soft_update_key_mismatch [("a", 1), ("c", 2)] [("a", 2)] (1 / 2)).1
      ⟨"c", by decide, by decide⟩⟩

end NODEDRL
